import Mathlib

/-!
Verification of the GitHubCodebaseChat retrieval core against its design
specification.  The Python sources under `src/server/` are shallowly embedded:
pure helpers become Lean functions on `String` / `List Char`, the in-memory
rate limiter and response cache become explicit state passed through step
functions, and raised `GitHubAPIError` exceptions become `Except.error`
values carrying the message text.
-/

set_option maxHeartbeats 4000000
set_option maxRecDepth 10000

namespace GHC

/-! ## Character-list string primitives (Python semantics) -/

/-- Python `str.rstrip` with a single-character argument: drop every trailing
occurrence of `c`.  Embeds the `url.rstrip("/")` step of
`GitHubAPI._parse_github_url` (api.py line 31). -/
def rstripCh (c : Char) (xs : List Char) : List Char :=
  (xs.reverse.dropWhile (fun d => d == c)).reverse

/-- Python `str.strip` with a single-character argument: drop every leading and
trailing occurrence of `c`.  Embeds `parsed.path.strip("/")` (api.py line 33). -/
def stripBothCh (c : Char) (xs : List Char) : List Char :=
  rstripCh c (xs.dropWhile (fun d => d == c))

/-- Python `str.split` on a one-character separator: `"a//b"` splits into
`["a", "", "b"]` and `""` splits into `[""]` (api.py line 33). -/
def splitOnCh (c : Char) : List Char → List (List Char)
  | [] => [[]]
  | x :: rest =>
    if x = c then [] :: splitOnCh c rest
    else (x :: (splitOnCh c rest).headD []) :: (splitOnCh c rest).tail

/-- Python `"/".join` at the character-list level. -/
def joinCL : List (List Char) → List Char
  | [] => []
  | [s] => s
  | s :: t :: rest => s ++ '/' :: joinCL (t :: rest)

/-- Python `"/".join` on strings: embeds `"/".join(remaining_parts)`
(api.py line 45) and the path-joining convention of the data model. -/
def joinSegs : List String → String
  | [] => ""
  | [s] => s
  | s :: t :: rest => s ++ "/" ++ joinSegs (t :: rest)

/-- Python `str.replace(".git", "")`: delete every non-overlapping occurrence
of `".git"`, scanning left to right.  Embeds the `.replace(".git", "")` step
of `GitHubAPI._parse_github_url` (api.py line 31); note the source replaces
every occurrence, not only a trailing one. -/
def removeDotGit : List Char → List Char
  | '.' :: 'g' :: 'i' :: 't' :: rest => removeDotGit rest
  | c :: rest => c :: removeDotGit rest
  | [] => []

/-- The pattern `".git"` occurs somewhere in `xs`. -/
def HasDotGit (xs : List Char) : Prop := ".git".data <:+: xs

instance (xs : List Char) : Decidable (HasDotGit xs) := by
  unfold HasDotGit; infer_instance

instance {ε α : Type} [DecidableEq ε] [DecidableEq α] : DecidableEq (Except ε α) := fun a b =>
  match a, b with
  | .error e, .error f =>
    if h : e = f then isTrue (by rw [h]) else isFalse (fun hc => by cases hc; exact h rfl)
  | .ok x, .ok y =>
    if h : x = y then isTrue (by rw [h]) else isFalse (fun hc => by cases hc; exact h rfl)
  | .error _, .ok _ => isFalse (fun hc => by cases hc)
  | .ok _, .error _ => isFalse (fun hc => by cases hc)

/-! ## CPython `urllib.parse` path extraction -/

/-- The WHATWG C0-control-or-space class that CPython `urlsplit` strips from
both ends of the URL. -/
def isC0OrSpace (c : Char) : Bool := c.val ≤ 32

/-- CPython `urlsplit` deletes every tab, carriage return, and newline
anywhere in the URL before parsing. -/
def removeUnsafeBytes (xs : List Char) : List Char :=
  xs.filter (fun c => !(c == '\t' || c == '\r' || c == '\n'))

/-- Strip C0-control-or-space characters from both ends. -/
def stripC0 (xs : List Char) : List Char :=
  ((xs.dropWhile isC0OrSpace).reverse.dropWhile isC0OrSpace).reverse

/-- Split a character list at the first occurrence of `c`, returning the parts
before and after it, or `none` when `c` does not occur. -/
def splitFirst (c : Char) : List Char → Option (List Char × List Char)
  | [] => none
  | x :: rest =>
    if x = c then some ([], rest)
    else
      match splitFirst c rest with
      | none => none
      | some (pre, post) => some (x :: pre, post)

/-- Characters CPython allows inside a URL scheme. -/
def isSchemeChar (c : Char) : Bool :=
  c.isAlpha || c.isDigit || c == '+' || c == '-' || c == '.'

/-- Modelled from CPython `urllib.parse.urlsplit`, restricted to what
`_parse_github_url` consumes: the `.path` component.  The model strips
C0-control-or-space characters from both ends, removes tab/CR/LF everywhere,
drops a well-formed `scheme:` head, drops a `//netloc` part up to the next
`/`, `?` or `#`, and cuts the fragment and query tails. -/
def urlparsePath (xs : List Char) : List Char :=
  let u0 := removeUnsafeBytes (stripC0 xs)
  let u1 :=
    match splitFirst ':' u0 with
    | some (pre, post) =>
        if pre ≠ [] ∧ (pre.headD ' ').isAlpha ∧ pre.all isSchemeChar then post else u0
    | none => u0
  let u2 :=
    match u1 with
    | '/' :: '/' :: rest => rest.dropWhile (fun c => !(c == '/' || c == '?' || c == '#'))
    | _ => u1
  let u3 := match splitFirst '#' u2 with | some (pre, _) => pre | none => u2
  match splitFirst '?' u3 with | some (pre, _) => pre | none => u3

/-! ## Repository reference parsing (`GitHubAPI._parse_github_url`) -/

/-- The segment-handling core of `_parse_github_url` (api.py lines 35-47),
applied to the slash-split path components: fewer than two components fail
with the `"Invalid GitHub URL format"` error; the first two are owner and
repo; a following literal `"tree"` or `"blob"` component is skipped together
with the component after it (the branch name); the rest joined by `"/"` is
the subpath. -/
def parseParts (path_parts : List (List Char)) : Except String (String × String × String) :=
  if path_parts.length < 2 then .error "Invalid GitHub URL format"
  else
    let owner := String.mk (path_parts.headD [])
    let repo := String.mk ((path_parts.drop 1).headD [])
    let remaining := path_parts.drop 2
    let remaining :=
      if remaining ≠ [] ∧ (remaining.headD [] = "tree".data ∨ remaining.headD [] = "blob".data)
      then remaining.drop 2 else remaining
    .ok (owner, repo, joinSegs (remaining.map String.mk))

/-- The slash-split path components `_parse_github_url` computes from a raw
locator before the segment logic runs (api.py lines 31-33). -/
def pathPartsOf (url : String) : List (List Char) :=
  splitOnCh '/' (stripBothCh '/' (urlparsePath (removeDotGit (rstripCh '/' url.data))))

/-- Embeds `GitHubAPI._parse_github_url` (api.py lines 29-47):
`url.rstrip("/").replace(".git", "")`, then
`urlparse(url).path.strip("/").split("/")`, then the owner/repo/subpath
segment logic.  A raised `GitHubAPIError` is an `Except.error` with the
message text. -/
def parse_github_url (url : String) : Except String (String × String × String) :=
  parseParts (pathPartsOf url)

/-- Python `str.endswith(".git")` at the character-list level. -/
def endsWithDotGit (xs : List Char) : Bool := ".git".data.isSuffixOf xs

/-- Drop a trailing `".git"` when present, and only a trailing one. -/
def dropTrailingGit (xs : List Char) : List Char :=
  if endsWithDotGit xs then xs.take (xs.length - 4) else xs

/-- Strip surrounding whitespace. -/
def trimWS (xs : List Char) : List Char :=
  ((xs.dropWhile Char.isWhitespace).reverse.dropWhile Char.isWhitespace).reverse

/-- The reference parsing algorithm exactly as the specification words it
(spec section 4.1 / claim C5): strip surrounding whitespace, normalize
trailing slashes, strip an optional trailing `".git"` (and only a trailing
one), then split the URL path into segments and apply the owner/name and
`tree`/`blob` segment logic.  Kept separate from `parse_github_url` so the
two can be compared. -/
def spec_parse_github_url (url : String) : Except String (String × String × String) :=
  parseParts (splitOnCh '/'
    (stripBothCh '/' (urlparsePath (dropTrailingGit (rstripCh '/' (trimWS url.data))))))

/-! ## Depth-bounded tree query builder (`GitHubAPI._build_recursive_tree_query`) -/

/-- `GitHubAPI.MAX_DEPTH` (api.py line 18). -/
def MAX_DEPTH : Nat := 3

/-- The literal fragment `_build_recursive_tree_query` returns at or beyond
`MAX_DEPTH` (api.py lines 52-63), exact text of the Python triple-quoted
string including its whitespace. -/
def leafTreeQuery : String :=
  "\n                name\n                path\n                type\n                object \x7b\n                    ... on Blob \x7b\n                        text\n                        isBinary\n                        byteSize\n                    \x7d\n                \x7d\n            "

/-- Text of the recursive template (api.py lines 65-81) before the
interpolation hole. -/
def treeQueryPre : String :=
  "\n            name\n            path\n            type\n            object \x7b\n                ... on Blob \x7b\n                    text\n                    isBinary\n                    byteSize\n                \x7d\n                ... on Tree \x7b\n                    entries \x7b\n                        "

/-- Text of the recursive template after the interpolation hole. -/
def treeQueryPost : String :=
  "\n                    \x7d\n                \x7d\n            \x7d\n        "

/-- Recursion core of the query builder, structural on the remaining depth
`MAX_DEPTH - depth`: zero remaining depth yields the leaf fragment, one more
level splices the next fragment into the template's `entries` block. -/
def buildFuel : Nat → String
  | 0 => leafTreeQuery
  | k + 1 => treeQueryPre ++ buildFuel k ++ treeQueryPost

/-- Embeds `GitHubAPI._build_recursive_tree_query` (api.py lines 49-81): a
pure, total string-assembly function of the single integer `depth`.  At
`depth >= MAX_DEPTH` it returns the leaf fragment with no nested entries
field; below that it splices the fragment for `depth + 1` into the nested
`entries` block of the template.  The source's count-up recursion is
represented structurally on the remaining depth `MAX_DEPTH - depth`; the
theorems below recover the source's own recursion equations. -/
def build_recursive_tree_query (depth : Nat) : String :=
  buildFuel (MAX_DEPTH - depth)

/-- Number of (possibly overlapping) occurrences of the pattern `pat` in a
character list; used to count how many nested `entries` blocks a built query
fragment contains. -/
def countSub (pat : List Char) : List Char → Nat
  | [] => 0
  | c :: rest => (if pat.isPrefixOf (c :: rest) then 1 else 0) + countSub pat rest

/-! ## Tree flattener (`GitHubAPI._flatten_tree_entries`) -/

/-- The blob fields the tree query inlines for file entries (`text`,
`isBinary`, `byteSize`), optional because directory entries lack them. -/
structure BlobMeta where
  text : Option String
  isBinary : Option Bool
  byteSize : Option Nat
deriving DecidableEq, Repr

/-- A nested tree entry as decoded from the GraphQL response: the dictionary
with keys `name`, `type`, and `object` whose `entries` key (for directories)
holds the nested entries.  A missing or empty nested-entries field is
represented by `[]`: the flattener treats absent and empty identically
(both are falsy in `entry.get("object", {}).get("entries")`). -/
inductive RawEntry where
  | mk (name : String) (type : String) (children : List RawEntry) (meta : BlobMeta)

/-- Entry name. -/
def RawEntry.name : RawEntry → String
  | .mk n _ _ _ => n

/-- Entry type: `"blob"` for files, `"tree"` for directories. -/
def RawEntry.type : RawEntry → String
  | .mk _ t _ _ => t

/-- Nested entries carried by the entry, `[]` when absent or empty. -/
def RawEntry.children : RawEntry → List RawEntry
  | .mk _ _ cs _ => cs

/-- An output element of the flattener: `entry.copy()` with its `path` key
set (api.py lines 110-111); all original fields are retained in `orig`. -/
structure FlatEntry where
  orig : RawEntry
  path : String

/-- The path computed for an entry: `f"{base_path}/{name}" if base_path else
name` (api.py line 109). -/
def childPath (base name : String) : String :=
  if base = "" then name else base ++ "/" ++ name

/-- Embeds `GitHubAPI._flatten_tree_entries` (api.py lines 105-119): for each
entry in order, if it is a `tree` carrying a non-empty nested entries list,
first emit the recursive flattening of those nested entries with this
entry's path as the new base, then emit the entry itself. -/
def flatten_tree_entries : List RawEntry → String → List FlatEntry
  | [], _ => []
  | .mk n t cs m :: rest, base =>
    (if t = "tree" ∧ cs.isEmpty = false then flatten_tree_entries cs (childPath base n) else [])
      ++ ⟨.mk n t cs m, childPath base n⟩ :: flatten_tree_entries rest base

/-- `OccursUnder anc e es` means entry `e` is found in the nested input `es`
below the chain of directory names `anc` (outermost first), following only
directories that the flattener actually expands (`type = "tree"` with a
non-empty nested list). -/
inductive OccursUnder : List String → RawEntry → List RawEntry → Prop
  | here {e : RawEntry} {es : List RawEntry} : e ∈ es → OccursUnder [] e es
  | child {n t cs m anc e es} : RawEntry.mk n t cs m ∈ es → t = "tree" → cs ≠ [] →
      OccursUnder anc e cs → OccursUnder (n :: anc) e es

/-- All entry names in a nested entry list are non-empty (recursively). -/
def namesOkL : List RawEntry → Bool
  | [] => true
  | .mk n _ cs _ :: rest => (!(n == "")) && namesOkL cs && namesOkL rest

/-- Join a base path with a slash-joined segment list, following the
flattener's conditional join. -/
def joinBase (base : String) (segs : List String) : String :=
  if base = "" then joinSegs segs else base ++ "/" ++ joinSegs segs

/-! ## Subpath filter of `GitHubAPI.get_tree` -/

/-- Python `str.startswith` as used at api.py line 213. -/
def pyStartsWith (s pre : String) : Bool := pre.data.isPrefixOf s.data

/-- Embeds the subpath filtering stage of `GitHubAPI.get_tree` (api.py lines
209-216): with a non-empty parsed subpath, keep the flattened entries whose
`path` starts with it (raw `str.startswith`), and raise the path-not-found
`GitHubAPIError` when none remain. -/
def get_tree_filter (path : String) (entries : List FlatEntry) : Except String (List FlatEntry) :=
  if path = "" then .ok entries
  else
    let filtered := entries.filter (fun e => pyStartsWith e.path path)
    if filtered.isEmpty then .error ("Path \x27" ++ path ++ "\x27 not found in repository")
    else .ok filtered

/-- Segment-wise path-prefix match as the specification words it (claim C2):
the subpath's slash-segments are an initial run of the whole path's
slash-segments, so `"src"` matches `"src"` and `"src/x"` but not
`"src2/file"`. -/
def segmentStartsWith (s pre : String) : Bool :=
  (splitOnCh '/' pre.data).isPrefixOf (splitOnCh '/' s.data)

/-- The filtering stage as the specification describes it, for comparison
with `get_tree_filter`. -/
def spec_tree_filter (path : String) (entries : List FlatEntry) : Except String (List FlatEntry) :=
  if path = "" then .ok entries
  else
    let filtered := entries.filter (fun e => segmentStartsWith e.path path)
    if filtered.isEmpty then .error ("Path \x27" ++ path ++ "\x27 not found in repository")
    else .ok filtered

/-! ## Single-file fetch precondition (`GitHubAPI.get_file_content`) -/

/-- Embeds the local, pre-transport part of `GitHubAPI.get_file_content`
(api.py lines 226-251): parse the locator, fail with
`"No file path specified"` when the parsed subpath is empty, and otherwise
produce the GraphQL variables `(owner, name, "HEAD:" ++ path)` of the single
transport request.  Reaching `.ok` is the point where the transport call
would be issued; the error paths return before any request exists. -/
def get_file_content_request (github_url : String) : Except String (String × String × String) :=
  match parse_github_url github_url with
  | .error e => .error e
  | .ok (owner, repo, path) =>
    if path = "" then .error "No file path specified"
    else .ok (owner, repo, "HEAD:" ++ path)

/-! ## Sliding-window rate limiter (`check_rate_limit`) -/

/-- `RATE_LIMIT_WINDOW` (github_agent_endpoint.py line 22), in seconds.
Arrival instants (Python `time.time()` values) are modelled as integers;
every comparison the limiter performs is order-theoretic, so nothing below
depends on sub-second resolution. -/
def RATE_LIMIT_WINDOW : ℤ := 60

/-- `MAX_REQUESTS_PER_WINDOW` (github_agent_endpoint.py line 23). -/
def MAX_REQUESTS_PER_WINDOW : Nat := 30

/-- The purge loop of `check_rate_limit` (lines 76-77): pop timestamps from
the front while the front is strictly older than the window. -/
def purgeOld (now : ℤ) : List ℤ → List ℤ
  | [] => []
  | t :: rest => if RATE_LIMIT_WINDOW < now - t then purgeOld now rest else t :: rest

/-- Embeds `check_rate_limit` (github_agent_endpoint.py lines 72-82) with the
module-level `request_timestamps` list made an explicit argument: purge old
timestamps, deny without recording when at least `MAX_REQUESTS_PER_WINDOW`
remain, otherwise record `now` and admit.  Returns the decision and the
updated timestamp list. -/
def check_rate_limit (now : ℤ) (ts : List ℤ) : Bool × List ℤ :=
  let ts1 := purgeOld now ts
  if MAX_REQUESTS_PER_WINDOW ≤ ts1.length then (false, ts1)
  else (true, ts1 ++ [now])

/-- Run `check_rate_limit` over a sequence of call times, threading the
timestamp state; returns each call time paired with its decision, and the
final state. -/
def runCalls : List ℤ → List ℤ → List (ℤ × Bool) × List ℤ
  | [], ts => ([], ts)
  | c :: rest, ts =>
    let r := check_rate_limit c ts
    let r2 := runCalls rest r.2
    ((c, r.1) :: r2.1, r2.2)

/-- The call times a run admits, starting from timestamp state `ts`. -/
def admittedFrom (calls : List ℤ) (ts : List ℤ) : List ℤ :=
  ((runCalls calls ts).1.filter (fun p => p.2)).map (fun p => p.1)

/-- The call times admitted starting from the initial empty
`request_timestamps` state (github_agent_endpoint.py line 24). -/
def admittedTimes (calls : List ℤ) : List ℤ :=
  admittedFrom calls []

/-- Membership of a time in the trailing window of length
`RATE_LIMIT_WINDOW` ending at `τ`, as a Bool for filtering. -/
def inWindow (τ t : ℤ) : Bool :=
  decide (τ - RATE_LIMIT_WINDOW ≤ t) && decide (t ≤ τ)

/-! ## Conversation context resolver and response cache key -/

/-- The decoded `message.data` payload of a stored conversation row:
`noData` when the field is missing or empty (falsy, line 134), `badJson`
when `json.loads` raises (line 140), `jsonObj u` when it decodes to an
object whose optional `repo_url` is `u`. -/
inductive MsgData where
  | noData
  | badJson
  | jsonObj (repo_url : Option String)
deriving DecidableEq, Repr

/-- A stored conversation row as the endpoint reads it: its `type`
(human/ai), its text `content`, and its decoded `message.data` payload. -/
structure Msg where
  type : String
  content : String
  data : MsgData
deriving DecidableEq, Repr

/-- The scan inside the resolution loop, over the already-reversed history:
skip rows without decodable data, stop at the first truthy `repo_url`
(`if data.get("repo_url"): ... break`, lines 137-139 — an empty string is
falsy and therefore skipped, like a null). -/
def extractGo : List Msg → Option String
  | [] => none
  | m :: older =>
    match m.data with
    | .jsonObj (some u) => if u = "" then extractGo older else some u
    | _ => extractGo older

/-- Embeds the context-resolution loop of `github_agent_endpoint`
(github_agent_endpoint.py lines 130-141): scan
`reversed(conversation_history)` (history is oldest first) for the last
truthy `repo_url`.  It is a pure scan: no mutation, network, or cache
access. -/
def extract_last_repo_url (history : List Msg) : Option String :=
  extractGo history.reverse

/-- One row's `repo_url` under the truthiness rule the code applies. -/
def truthyRepoUrl (m : Msg) : Option String :=
  match m.data with
  | .jsonObj (some u) => if u = "" then none else some u
  | _ => none

/-- The resolver as the specification words it (claim C9): the most recent
non-null `repositoryUrl`, scanning newest to oldest, with no truthiness
filter — an empty string is non-null and would be returned. -/
def spec_resolve_repo_url (history : List Msg) : Option String :=
  history.reverse.findSome?
    (fun m => match m.data with | .jsonObj (some u) => some u | _ => none)

/-- Python `x if x else ""` on an optional string. -/
def orEmptyStr (x : Option String) : String :=
  match x with
  | some s => if s = "" then "" else s
  | none => ""

/-- Python `a or b` on optional strings (`cached_response.get("repo_url") or
last_repo_url`, line 161). -/
def pyOrOpt (a b : Option String) : Option String :=
  match a with
  | some s => if s = "" then b else some s
  | none => b

/-- Embeds line 151 of github_agent_endpoint.py:
`cache_key = f"{request.query}_{last_repo_url if last_repo_url else ''}"`. -/
def cache_key (query : String) (last_repo_url : Option String) : String :=
  query ++ "_" ++ orEmptyStr last_repo_url

/-! ## Retrieval orchestrator (`github_agent_endpoint`) -/

/-- A value stored in `repo_cache`: the response content and the repository
URL it resolved (lines 231-234). -/
structure CachedResponse where
  content : String
  repo_url : Option String
deriving DecidableEq, Repr

/-- The `AgentResponse` pydantic model (lines 66-70). -/
structure AgentResponse where
  success : Bool
  message : Option String
  error : Option String
  repo_url : Option String
deriving DecidableEq, Repr

/-- Outcome of the external `github_agent.run` call (the transport/agent
collaborator): either a `Failed` result or a successful content plus
optional repository URL. -/
inductive AgentOutcome where
  | failed (reason : String)
  | ok (content : String) (repo_url : Option String)
deriving DecidableEq, Repr

/-- The observable steps of one endpoint call, in execution order. -/
inductive Ev where
  | rateLimitCheck
  | resolveContext
  | storeUserMsg
  | cacheLookup
  | agentRun
  | cacheWrite
  | storeAiMsg
deriving DecidableEq, Repr

/-- Result of one modelled endpoint call: the HTTP-level response, the
updated rate-limiter and cache state, and the ordered list of steps the call
performed. -/
structure EndpointResult where
  response : AgentResponse
  timestamps : List ℤ
  cache : List (String × CachedResponse)
  events : List Ev
deriving DecidableEq, Repr

/-- The rate-limit denial message (line 124). -/
def rateLimitMsg : String := "Rate limit exceeded. Please try again in a minute."

/-- Embeds the control flow of `github_agent_endpoint`
(github_agent_endpoint.py lines 117-251) with the shared state explicit: the
rate limit is checked first (line 123) and a denial returns immediately;
otherwise the conversation context is resolved (lines 129-141), the user
message stored, the cache probed with `cache_key` (lines 151-152) — a hit
returns the cached value without running the agent — and on a miss the agent
result is returned and, when successful, written through to the cache under
the same key (line 231).  The cache is an association list probed with
`List.lookup`; a write prepends, shadowing any older entry for the key
(capacity and TTL eviction carry no claim and are not modelled). -/
def github_agent_endpoint (now : ℤ) (query : String) (history : List Msg)
    (timestamps : List ℤ) (cache : List (String × CachedResponse))
    (agent : AgentOutcome) : EndpointResult :=
  let rl := check_rate_limit now timestamps
  if rl.1 = false then
    { response := { success := false, message := some rateLimitMsg,
                    error := some rateLimitMsg, repo_url := none },
      timestamps := rl.2, cache := cache, events := [.rateLimitCheck] }
  else
    let last_repo_url := extract_last_repo_url history
    let key := cache_key query last_repo_url
    match List.lookup key cache with
    | some cached =>
      { response := { success := true, message := some cached.content, error := none,
                      repo_url := pyOrOpt cached.repo_url last_repo_url },
        timestamps := rl.2, cache := cache,
        events := [.rateLimitCheck, .resolveContext, .storeUserMsg, .cacheLookup, .storeAiMsg] }
    | none =>
      match agent with
      | .failed reason =>
        { response := { success := false, message := some ("Agent failed: " ++ reason),
                        error := some ("Agent failed: " ++ reason), repo_url := none },
          timestamps := rl.2, cache := cache,
          events := [.rateLimitCheck, .resolveContext, .storeUserMsg, .cacheLookup,
                     .agentRun, .storeAiMsg] }
      | .ok content agent_repo_url =>
        let repo_url := pyOrOpt agent_repo_url last_repo_url
        { response := { success := true, message := some content, error := none,
                        repo_url := repo_url },
          timestamps := rl.2,
          cache := (key, ⟨content, repo_url⟩) :: cache,
          events := [.rateLimitCheck, .resolveContext, .storeUserMsg, .cacheLookup,
                     .agentRun, .cacheWrite, .storeAiMsg] }

/-! # Supporting lemmas -/

theorem removeDotGit_eq_self {xs : List Char} (h : ¬ HasDotGit xs) : removeDotGit xs = xs := by
  induction xs using removeDotGit.induct with
  | case1 rest ih => exact absurd ⟨[], rest, rfl⟩ h
  | case2 c rest hne ih =>
    have hr : ¬ HasDotGit rest := fun hin => h (List.infix_cons hin)
    simp only [removeDotGit]
    rw [ih hr]
  | case3 => rfl

theorem rstripCh_isPrefix (c : Char) (xs : List Char) : rstripCh c xs <+: xs := by
  have h : xs.reverse.dropWhile (fun d => d == c) <:+ xs.reverse :=
    List.dropWhile_suffix _
  have h2 := List.reverse_prefix.mpr h
  rw [List.reverse_reverse] at h2
  exact h2

theorem hasDotGit_rstrip {c : Char} {xs : List Char} (h : HasDotGit (rstripCh c xs)) :
    HasDotGit xs :=
  h.trans (rstripCh_isPrefix c xs).isInfix

theorem endsWithDotGit_eq_false {xs : List Char} (h : ¬ HasDotGit xs) :
    endsWithDotGit xs = false := by
  unfold endsWithDotGit
  rw [Bool.eq_false_iff]
  intro hs
  exact h ((List.isSuffixOf_iff_suffix.mp hs).isInfix)

theorem dropTrailingGit_eq_self {xs : List Char} (h : ¬ HasDotGit xs) :
    dropTrailingGit xs = xs := by
  unfold dropTrailingGit
  rw [endsWithDotGit_eq_false h]
  rfl

theorem parse_eq_spec_of_clean (url : String)
    (hws : trimWS url.data = url.data)
    (hgit : ¬ HasDotGit (rstripCh '/' url.data)) :
    parse_github_url url = spec_parse_github_url url := by
  unfold parse_github_url spec_parse_github_url pathPartsOf
  rw [hws, removeDotGit_eq_self hgit, dropTrailingGit_eq_self hgit]

theorem parseParts_tree (o n b : List Char) (rest : List (List Char)) :
    parseParts (o :: n :: "tree".data :: b :: rest)
      = .ok (String.mk o, String.mk n, joinSegs (rest.map String.mk)) := by
  unfold parseParts
  rw [if_neg (by simp)]
  simp

theorem parseParts_blob (o n b : List Char) (rest : List (List Char)) :
    parseParts (o :: n :: "blob".data :: b :: rest)
      = .ok (String.mk o, String.mk n, joinSegs (rest.map String.mk)) := by
  unfold parseParts
  rw [if_neg (by simp)]
  simp

theorem parseParts_plain (o n r0 : List Char) (rest : List (List Char))
    (h1 : r0 ≠ "tree".data) (h2 : r0 ≠ "blob".data) :
    parseParts (o :: n :: r0 :: rest)
      = .ok (String.mk o, String.mk n, joinSegs ((r0 :: rest).map String.mk)) := by
  unfold parseParts
  rw [if_neg (by simp)]
  simp [h1, h2]

theorem parseParts_error_iff (parts : List (List Char)) :
    parseParts parts = .error "Invalid GitHub URL format" ↔ parts.length < 2 := by
  unfold parseParts
  by_cases h : parts.length < 2
  · simp [h]
  · simp [h]

theorem splitOnCh_cons_pos (c x : Char) (rest : List Char) (h : x = c) :
    splitOnCh c (x :: rest) = [] :: splitOnCh c rest := by
  simp [splitOnCh, h]

theorem splitOnCh_cons_neg (c x : Char) (rest : List Char) (h : ¬ x = c) :
    splitOnCh c (x :: rest)
      = (x :: (splitOnCh c rest).headD []) :: (splitOnCh c rest).tail := by
  simp [splitOnCh, h]

theorem splitOnCh_ne_nil (c : Char) (xs : List Char) : splitOnCh c xs ≠ [] := by
  cases xs with
  | nil => simp [splitOnCh]
  | cons x rest =>
    by_cases hx : x = c
    · simp [splitOnCh, hx]
    · rw [splitOnCh_cons_neg c x rest hx]
      simp

theorem dropWhile_head_not {α : Type} (p : α → Bool) :
    ∀ (xs : List α) (y : α) (ys : List α), xs.dropWhile p = y :: ys → p y = false := by
  intro xs
  induction xs with
  | nil => intro y ys h; simp [List.dropWhile] at h
  | cons a rest ih =>
    intro y ys h
    by_cases ha : p a
    · rw [List.dropWhile_cons_of_pos ha] at h
      exact ih _ _ h
    · rw [List.dropWhile_cons_of_neg ha] at h
      cases h
      exact Bool.eq_false_iff.mpr ha

theorem stripBothCh_head (c : Char) (xs : List Char) (y : Char) (ys : List Char)
    (h : stripBothCh c xs = y :: ys) : (y == c) = false := by
  have hpre : y :: ys <+: xs.dropWhile (fun d => d == c) := by
    rw [← h]
    exact rstripCh_isPrefix c _
  obtain ⟨t, ht⟩ := hpre
  exact dropWhile_head_not (fun d => d == c) xs y (ys ++ t) ht.symm

theorem stripBothCh_getLast (c : Char) (xs : List Char) (y : Char)
    (h : (stripBothCh c xs).getLast? = some y) : (y == c) = false := by
  unfold stripBothCh rstripCh at h
  rw [List.getLast?_eq_head?_reverse, List.reverse_reverse] at h
  cases hd : (xs.dropWhile (fun d => d == c)).reverse.dropWhile (fun d => d == c) with
  | nil => rw [hd] at h; simp at h
  | cons z zs =>
    rw [hd] at h
    simp only [List.head?_cons, Option.some.injEq] at h
    subst h
    exact dropWhile_head_not (fun d => d == c) _ z zs hd

theorem splitOnCh_head_cons (c x : Char) (rest : List Char) (hx : ¬ x = c) :
    ∃ s ss, splitOnCh c (x :: rest) = (x :: s) :: ss :=
  ⟨(splitOnCh c rest).headD [], (splitOnCh c rest).tail, splitOnCh_cons_neg c x rest hx⟩

theorem splitOnCh_getLast_ne_nil (c : Char) :
    ∀ (xs : List Char), xs ≠ [] →
      (∀ y, xs.getLast? = some y → (y == c) = false) →
      ∀ L, (splitOnCh c xs).getLast? = some L → L ≠ [] := by
  intro xs
  induction xs with
  | nil => intro h; exact absurd rfl h
  | cons x rest ih =>
    intro _ hlast L hL
    cases rest with
    | nil =>
      have hx : ¬ x = c := by
        have := hlast x (by simp)
        simpa using this
      rw [splitOnCh_cons_neg c x [] hx] at hL
      simp [splitOnCh] at hL
      subst hL
      simp
    | cons y rest2 =>
      have hlast2 : ∀ z, (y :: rest2).getLast? = some z → (z == c) = false := by
        intro z hz
        exact hlast z (by rwa [List.getLast?_cons_cons])
      cases hS : splitOnCh c (y :: rest2) with
      | nil => exact absurd hS (splitOnCh_ne_nil c _)
      | cons s ss =>
        by_cases hx : x = c
        · rw [splitOnCh_cons_pos c x _ hx, hS, List.getLast?_cons_cons] at hL
          exact ih (by simp) hlast2 L (by rw [hS]; exact hL)
        · rw [splitOnCh_cons_neg c x _ hx, hS] at hL
          simp only [List.headD_cons, List.tail_cons] at hL
          cases ss with
          | nil =>
            simp at hL
            subst hL
            simp
          | cons s2 ss2 =>
            rw [List.getLast?_cons_cons] at hL
            exact ih (by simp) hlast2 L
              (by rw [hS, List.getLast?_cons_cons]; exact hL)

theorem parts_head_ne_nil (X : List Char) (p : List Char) (tail : List (List Char))
    (h : splitOnCh '/' (stripBothCh '/' X) = p :: tail)
    (hlen : 2 ≤ (splitOnCh '/' (stripBothCh '/' X)).length) : p ≠ [] := by
  cases hS : stripBothCh '/' X with
  | nil => rw [hS] at h hlen; simp [splitOnCh] at h hlen
  | cons x rest =>
    have hx : ¬ x = '/' := by
      have := stripBothCh_head '/' X x rest hS
      simpa using this
    obtain ⟨s, ss, hsplit⟩ := splitOnCh_head_cons '/' x rest hx
    rw [hS, hsplit] at h
    cases h
    simp

theorem parts_getLast_ne_nil (X : List Char) (L : List Char)
    (hlen : 2 ≤ (splitOnCh '/' (stripBothCh '/' X)).length)
    (hL : (splitOnCh '/' (stripBothCh '/' X)).getLast? = some L) : L ≠ [] := by
  cases hS : stripBothCh '/' X with
  | nil => rw [hS] at hlen; simp [splitOnCh] at hlen
  | cons x rest =>
    refine splitOnCh_getLast_ne_nil '/' (x :: rest) (by simp) ?_ L (by rw [← hS]; exact hL)
    intro y hy
    exact stripBothCh_getLast '/' X y (by rw [hS]; exact hy)

theorem parts_nonempty_count (X : List Char)
    (hlen : 2 ≤ (splitOnCh '/' (stripBothCh '/' X)).length) :
    2 ≤ ((splitOnCh '/' (stripBothCh '/' X)).filter (fun s => !s.isEmpty)).length := by
  cases hparts : splitOnCh '/' (stripBothCh '/' X) with
  | nil => exact absurd hparts (splitOnCh_ne_nil _ _)
  | cons p tail =>
    have hp : p ≠ [] := parts_head_ne_nil X p tail hparts hlen
    cases tail with
    | nil => rw [hparts] at hlen; simp at hlen
    | cons q tail2 =>
      obtain ⟨L, hLsome⟩ : ∃ L, (q :: tail2).getLast? = some L := by
        cases h : (q :: tail2).getLast? with
        | none => simp [List.getLast?_eq_none_iff] at h
        | some L => exact ⟨L, rfl⟩
      have hLne : L ≠ [] := by
        refine parts_getLast_ne_nil X L hlen ?_
        rw [hparts, List.getLast?_cons_cons]
        exact hLsome
      have hLmem : L ∈ q :: tail2 := List.mem_of_getLast?_eq_some hLsome
      have hfp : (!p.isEmpty) = true := by
        simp [List.isEmpty_iff, hp]
      have : L ∈ (q :: tail2).filter (fun s => !s.isEmpty) := by
        rw [List.mem_filter]
        exact ⟨hLmem, by simp [List.isEmpty_iff, hLne]⟩
      have h1 : 1 ≤ ((q :: tail2).filter (fun s => !s.isEmpty)).length :=
        List.length_pos.mpr (List.ne_nil_of_mem this)
      rw [List.filter_cons]
      simp only [hfp, if_true, List.length_cons]
      omega

theorem parseParts_ok_owner (parts : List (List Char)) (o n p : String)
    (h : parseParts parts = .ok (o, n, p)) : o = String.mk (parts.headD []) := by
  unfold parseParts at h
  by_cases hlen : parts.length < 2
  · rw [if_pos hlen] at h; cases h
  · rw [if_neg hlen] at h
    simp only [Except.ok.injEq, Prod.mk.injEq] at h
    exact h.1.symm

/-! # Claims -/

/-- Claim C5, counterexample: the source removes every occurrence of
`".git"`, not only a trailing one, so the locator
`https://github.com/acme/my.github.io` parses to repository name
`myhub.io` while the reference algorithm of the claim keeps
`my.github.io`. -/
theorem c5_counterexample :
    parse_github_url "https://github.com/acme/my.github.io"
        = .ok ("acme", "myhub.io", "")
    ∧ spec_parse_github_url "https://github.com/acme/my.github.io"
        = .ok ("acme", "my.github.io", "")
    ∧ parse_github_url "https://github.com/acme/my.github.io"
        ≠ spec_parse_github_url "https://github.com/acme/my.github.io" := by
  refine ⟨by decide, by decide, by decide⟩

/-- Claim C5 (amended): on locators whose text is untouched by whitespace
trimming and contains no occurrence of `".git"` after trailing-slash
stripping, the parser output equals the reference algorithm of the claim;
the segment logic takes the first two components as owner and name, skips a
literal `tree` or `blob` component together with the following branch
component (joining the rest with `/` as the subpath), and otherwise uses the
remaining components directly; in particular a locator containing
`tree/<branch>/a/b` parses to subpath exactly `a/b` with the branch
discarded. -/
theorem c5_parse_reference_algorithm :
    (∀ url : String, trimWS url.data = url.data →
        ¬ HasDotGit (rstripCh '/' url.data) →
        parse_github_url url = spec_parse_github_url url)
    ∧ (∀ o n b : List Char, ∀ rest : List (List Char),
        parseParts (o :: n :: "tree".data :: b :: rest)
            = .ok (String.mk o, String.mk n, joinSegs (rest.map String.mk))
        ∧ parseParts (o :: n :: "blob".data :: b :: rest)
            = .ok (String.mk o, String.mk n, joinSegs (rest.map String.mk)))
    ∧ (∀ o n r0 : List Char, ∀ rest : List (List Char), r0 ≠ "tree".data → r0 ≠ "blob".data →
        parseParts (o :: n :: r0 :: rest)
            = .ok (String.mk o, String.mk n, joinSegs ((r0 :: rest).map String.mk)))
    ∧ parse_github_url "https://github.com/acme/widgets/tree/main/a/b"
        = .ok ("acme", "widgets", "a/b") := by
  refine ⟨parse_eq_spec_of_clean, ?_, parseParts_plain, by decide⟩
  intro o n b rest
  exact ⟨parseParts_tree o n b rest, parseParts_blob o n b rest⟩

/-- Witness for C5: the pipeline agreement applied to a concrete clean
locator, with both cleanliness hypotheses discharged by evaluation. -/
theorem c5_witness :
    parse_github_url "https://github.com/acme/widgets"
      = spec_parse_github_url "https://github.com/acme/widgets" :=
  c5_parse_reference_algorithm.1 "https://github.com/acme/widgets" (by decide) (by decide)

/-- Claim C6, counterexample: the length test `len(path_parts) < 2` counts
empty components, so `https://github.com/a//b` (two non-empty segments)
parses successfully with an empty repository name, refuting the claimed
invariant that success implies a non-empty name. -/
theorem c6_counterexample :
    parse_github_url "https://github.com/a//b" = .ok ("a", "", "b")
    ∧ ¬ (∀ url o n p, parse_github_url url = .ok (o, n, p) → n ≠ "") := by
  refine ⟨by decide, fun h => h "https://github.com/a//b" "a" "" "b" (by decide) rfl⟩

/-- Claim C6 (amended): the parser fails with the invalid-reference error
exactly when the split path has fewer than two components, which (because
stripping removes outer slashes) coincides with having fewer than two
non-empty components; on success the owner is non-empty, but the name may be
empty when the path contains consecutive slashes. -/
theorem c6_invalid_reference :
    ∀ url : String,
      (parse_github_url url = .error "Invalid GitHub URL format"
          ↔ (pathPartsOf url).length < 2)
      ∧ ((pathPartsOf url).length < 2
          ↔ ((pathPartsOf url).filter (fun s => !s.isEmpty)).length < 2)
      ∧ (∀ o n p, parse_github_url url = .ok (o, n, p) → o ≠ "") := by
  intro url
  have hdef : pathPartsOf url
      = splitOnCh '/' (stripBothCh '/' (urlparsePath (removeDotGit (rstripCh '/' url.data)))) :=
    rfl
  refine ⟨parseParts_error_iff _, ?_, ?_⟩
  · constructor
    · intro h
      calc ((pathPartsOf url).filter (fun s => !s.isEmpty)).length
          ≤ (pathPartsOf url).length := List.length_filter_le _ _
        _ < 2 := h
    · intro h
      by_contra hlen
      push_neg at hlen
      rw [hdef] at hlen h
      have h2 := parts_nonempty_count _ hlen
      omega
  · intro o n p h
    have hlen : ¬ (pathPartsOf url).length < 2 := by
      intro hlt
      rw [← parseParts_error_iff] at hlt
      rw [parse_github_url] at h
      rw [h] at hlt
      cases hlt
    push_neg at hlen
    have ho := parseParts_ok_owner _ _ _ _ h
    rw [hdef] at hlen ho
    cases hparts : splitOnCh '/' (stripBothCh '/' (urlparsePath (removeDotGit (rstripCh '/' url.data)))) with
    | nil => exact absurd hparts (splitOnCh_ne_nil _ _)
    | cons q tail =>
      have hq : q ≠ [] := parts_head_ne_nil _ q tail hparts hlen
      rw [hparts] at ho
      simp only [List.headD_cons] at ho
      rw [ho]
      intro hcontra
      exact hq (by simpa [String.ext_iff] using hcontra)

/-- Witness for C6: the error-iff equivalence and owner non-emptiness
applied at concrete locators. -/
theorem c6_witness :
    parse_github_url "https://github.com/onlyowner" = .error "Invalid GitHub URL format"
    ∧ ("acme" : String) ≠ "" :=
  ⟨((c6_invalid_reference "https://github.com/onlyowner").1).mpr (by decide),
   (c6_invalid_reference "https://github.com/acme/widgets").2.2 "acme" "widgets" ""
      (by decide)⟩

/-- Claim C7: the query builder is a pure total function of the depth; at or
beyond `MAX_DEPTH = 3` it returns the leaf fragment requesting only
name/path/type and blob metadata with no nested `entries` field, below it it
splices the fragment for `depth + 1` into the template's nested `entries`
block, and the fragment built from depth 0 contains exactly `MAX_DEPTH`
nested `entries` blocks (the `kind` field of the specification is the
GraphQL `type` field). -/
theorem c7_query_builder :
    (∀ d, MAX_DEPTH ≤ d → build_recursive_tree_query d = leafTreeQuery)
    ∧ (∀ d, d < MAX_DEPTH →
        build_recursive_tree_query d
          = treeQueryPre ++ build_recursive_tree_query (d + 1) ++ treeQueryPost)
    ∧ countSub "entries".data (build_recursive_tree_query 0).data = MAX_DEPTH
    ∧ countSub "entries".data leafTreeQuery.data = 0
    ∧ (∀ pat : String,
        pat ∈ (["name", "path", "type", "text", "isBinary", "byteSize"] : List String) →
        0 < countSub pat.data leafTreeQuery.data
          ∧ 0 < countSub pat.data treeQueryPre.data) := by
  refine ⟨?_, ?_, by decide, by decide, by decide⟩
  · intro d hd
    unfold build_recursive_tree_query
    rw [Nat.sub_eq_zero_of_le hd]
    rfl
  · intro d hd
    unfold build_recursive_tree_query
    have h : MAX_DEPTH - d = (MAX_DEPTH - (d + 1)) + 1 := by
      unfold MAX_DEPTH at *
      omega
    rw [h]
    rfl

/-- Witness for C7: the leaf equation at depth 3 and the splice equation at
depth 2, with the depth bounds discharged by evaluation. -/
theorem c7_witness :
    build_recursive_tree_query 3 = leafTreeQuery
    ∧ build_recursive_tree_query 2
        = treeQueryPre ++ build_recursive_tree_query 3 ++ treeQueryPost :=
  ⟨c7_query_builder.1 3 (by decide), c7_query_builder.2.1 2 (by decide)⟩

/-- Claim C10: when the parsed subpath is empty, `get_file_content` raises
`"No file path specified"` before any transport request is constructed. -/
theorem c10_no_file_path (url owner name : String)
    (h : parse_github_url url = .ok (owner, name, "")) :
    get_file_content_request url = .error "No file path specified" := by
  unfold get_file_content_request
  rw [h]
  rfl

/-- Witness for C10: a plain two-segment locator parses with an empty
subpath and the file fetch fails locally. -/
theorem c10_witness :
    get_file_content_request "https://github.com/acme/widgets"
      = .error "No file path specified" :=
  c10_no_file_path "https://github.com/acme/widgets" "acme" "widgets" (by decide)

theorem joinCL_splitOnCh : ∀ xs : List Char, joinCL (splitOnCh '/' xs) = xs := by
  intro xs
  induction xs with
  | nil => rfl
  | cons x rest ih =>
    by_cases hx : x = '/'
    · rw [splitOnCh_cons_pos '/' x rest hx]
      cases hS : splitOnCh '/' rest with
      | nil => exact absurd hS (splitOnCh_ne_nil _ _)
      | cons s ss =>
        show joinCL ([] :: s :: ss) = x :: rest
        rw [show joinCL ([] :: s :: ss) = [] ++ '/' :: joinCL (s :: ss) from rfl]
        rw [hS] at ih
        simp [ih, hx]
    · rw [splitOnCh_cons_neg '/' x rest hx]
      cases hS : splitOnCh '/' rest with
      | nil => exact absurd hS (splitOnCh_ne_nil _ _)
      | cons s ss =>
        simp only [List.headD_cons, List.tail_cons]
        rw [hS] at ih
        cases ss with
        | nil => simpa [joinCL] using ih
        | cons s2 ss2 =>
          show (x :: s) ++ '/' :: joinCL (s2 :: ss2) = x :: rest
          rw [show joinCL (s :: s2 :: ss2) = s ++ '/' :: joinCL (s2 :: ss2) from rfl] at ih
          simpa using ih

theorem joinCL_append : ∀ (A B : List (List Char)), A ≠ [] → B ≠ [] →
    joinCL (A ++ B) = joinCL A ++ '/' :: joinCL B := by
  intro A
  induction A with
  | nil => intro B h; exact absurd rfl h
  | cons a A2 ih =>
    intro B _ hB
    cases A2 with
    | nil =>
      cases B with
      | nil => exact absurd rfl hB
      | cons b B2 => rfl
    | cons a2 A3 =>
      calc joinCL ((a :: a2 :: A3) ++ B)
          = joinCL (a :: (a2 :: (A3 ++ B))) := by rw [List.cons_append, List.cons_append]
        _ = a ++ '/' :: joinCL (a2 :: (A3 ++ B)) := rfl
        _ = a ++ '/' :: joinCL ((a2 :: A3) ++ B) := by rw [List.cons_append]
        _ = a ++ '/' :: (joinCL (a2 :: A3) ++ '/' :: joinCL B) := by
              rw [ih B (by simp) hB]
        _ = (a ++ '/' :: joinCL (a2 :: A3)) ++ '/' :: joinCL B := by simp
        _ = joinCL (a :: a2 :: A3) ++ '/' :: joinCL B := rfl

theorem segmentStartsWith_implies_pyStartsWith (s pre : String)
    (h : segmentStartsWith s pre = true) : pyStartsWith s pre = true := by
  unfold segmentStartsWith at h
  unfold pyStartsWith
  rw [List.isPrefixOf_iff_prefix] at h ⊢
  obtain ⟨t, ht⟩ := h
  cases t with
  | nil =>
    have heq := congrArg joinCL ht
    rw [List.append_nil, joinCL_splitOnCh, joinCL_splitOnCh] at heq
    rw [heq]
  | cons b t2 =>
    refine ⟨'/' :: joinCL (b :: t2), ?_⟩
    have heq := congrArg joinCL ht
    rw [joinCL_append _ _ (splitOnCh_ne_nil _ _) (by simp), joinCL_splitOnCh,
      joinCL_splitOnCh] at heq
    exact heq

theorem extractGo_eq_findSome? : ∀ l : List Msg, extractGo l = l.findSome? truthyRepoUrl := by
  intro l
  induction l with
  | nil => rfl
  | cons m rest ih =>
    rw [List.findSome?_cons]
    cases hd : m.data with
    | noData => simpa [extractGo, truthyRepoUrl, hd] using ih
    | badJson => simpa [extractGo, truthyRepoUrl, hd] using ih
    | jsonObj u =>
      cases u with
      | none => simpa [extractGo, truthyRepoUrl, hd] using ih
      | some v =>
        by_cases hv : v = ""
        · simpa [extractGo, truthyRepoUrl, hd, hv] using ih
        · simp [extractGo, truthyRepoUrl, hd, hv]

/-- Claim C2, counterexample: the source filter is Python `str.startswith`, a
raw string-prefix test, so subpath `src` does match `src2/file` and the
retrieval returns it instead of failing with the path-not-found error that
segment-wise matching would produce. -/
theorem c2_counterexample :
    get_tree_filter "src" [⟨.mk "file" "blob" [] ⟨none, none, none⟩, "src2/file"⟩]
        = .ok [⟨.mk "file" "blob" [] ⟨none, none, none⟩, "src2/file"⟩]
    ∧ spec_tree_filter "src" [⟨.mk "file" "blob" [] ⟨none, none, none⟩, "src2/file"⟩]
        = .error ("Path \x27src\x27 not found in repository")
    ∧ pyStartsWith "src2/file" "src" = true
    ∧ segmentStartsWith "src2/file" "src" = false :=
  ⟨rfl, rfl, rfl, rfl⟩

/-- Claim C2 (amended): with a non-empty parsed subpath the result contains
exactly the flattened entries whose path starts with the subpath as a raw
string prefix (`str.startswith`, so `src` also matches `src2/file`), failing
with the path-not-found error exactly when no entry matches; every
segment-wise match is in particular a raw-prefix match, so all entries the
claim describes are included. -/
theorem c2_subpath_filter :
    (∀ (path : String) (entries : List FlatEntry), path ≠ "" →
      ((get_tree_filter path entries
          = .error ("Path \x27" ++ path ++ "\x27 not found in repository"))
        ↔ entries.filter (fun e => pyStartsWith e.path path) = [])
      ∧ (∀ l, get_tree_filter path entries = .ok l →
          l = entries.filter (fun e => pyStartsWith e.path path)))
    ∧ (∀ s pre : String, segmentStartsWith s pre = true → pyStartsWith s pre = true) := by
  refine ⟨?_, segmentStartsWith_implies_pyStartsWith⟩
  intro path entries hpath
  unfold get_tree_filter
  rw [if_neg hpath]
  constructor
  · constructor
    · intro h
      by_cases hF : (entries.filter (fun e => pyStartsWith e.path path)).isEmpty
      · exact List.isEmpty_iff.mp hF
      · rw [if_neg hF] at h
        cases h
    · intro h
      rw [if_pos (List.isEmpty_iff.mpr h)]
  · intro l h
    by_cases hF : (entries.filter (fun e => pyStartsWith e.path path)).isEmpty
    · rw [if_pos hF] at h
      cases h
    · rw [if_neg hF] at h
      cases h
      rfl

/-- Witness for C2: the error-iff direction applied at a concrete subpath and
entry list with every hypothesis evaluated. -/
theorem c2_witness :
    get_tree_filter "docs" [⟨.mk "file" "blob" [] ⟨none, none, none⟩, "src/file"⟩]
      = .error ("Path \x27docs\x27 not found in repository") :=
  ((c2_subpath_filter.1 "docs" [⟨.mk "file" "blob" [] ⟨none, none, none⟩, "src/file"⟩]
      (by decide)).1).mpr rfl

/-- Claim C9, counterexample: the loop condition is Python truthiness
(`if data.get("repo_url")`), so a turn whose `repo_url` is the empty string
(non-null) is skipped and an older `R1` is returned, while the claimed
newest-non-null rule would return the empty string. -/
theorem c9_counterexample :
    extract_last_repo_url
        [⟨"ai", "y", .jsonObj (some "R1")⟩, ⟨"ai", "w", .jsonObj (some "")⟩] = some "R1"
    ∧ spec_resolve_repo_url
        [⟨"ai", "y", .jsonObj (some "R1")⟩, ⟨"ai", "w", .jsonObj (some "")⟩] = some ""
    ∧ (some "R1" : Option String) ≠ some "" :=
  ⟨by decide, by decide, by decide⟩

/-- Claim C9 (amended): the resolver returns the `repo_url` of the newest
turn whose decoded metadata carries a truthy (non-null and non-empty)
`repo_url`, scanning newest to oldest and stopping at the first such turn
(`List.findSome?` over the reversed history), and returns none exactly when
no turn carries one; it is a pure function of the turn list. -/
theorem c9_context_resolver :
    (∀ h : List Msg, extract_last_repo_url h = h.reverse.findSome? truthyRepoUrl)
    ∧ (∀ h : List Msg, extract_last_repo_url h = none ↔ ∀ m ∈ h, truthyRepoUrl m = none)
    ∧ extract_last_repo_url
        [⟨"human", "x", .noData⟩, ⟨"ai", "y", .jsonObj (some "R1")⟩,
         ⟨"human", "z", .noData⟩, ⟨"ai", "w", .jsonObj (some "R2")⟩] = some "R2"
    ∧ extract_last_repo_url [⟨"human", "x", .noData⟩, ⟨"ai", "y", .badJson⟩] = none := by
  have h1 : ∀ h : List Msg, extract_last_repo_url h = h.reverse.findSome? truthyRepoUrl :=
    fun h => extractGo_eq_findSome? h.reverse
  refine ⟨h1, ?_, by decide, by decide⟩
  intro h
  rw [h1, List.findSome?_eq_none_iff]
  constructor <;> intro hh m hm
  · exact hh m (List.mem_reverse.mpr hm)
  · exact hh m (List.mem_reverse.mp hm)

/-- Witness for C9: the findSome? characterization applied at a concrete
turn list. -/
theorem c9_witness :
    extract_last_repo_url [⟨"ai", "y", MsgData.jsonObj (some "R1")⟩]
      = [(⟨"ai", "y", MsgData.jsonObj (some "R1")⟩ : Msg)].reverse.findSome? truthyRepoUrl :=
  c9_context_resolver.1 _

/-- Claim C8: the cache key is a deterministic function of exactly the query
text and the resolved repository URL (empty URL component when no context
resolved): histories resolving to the same URL give the same key regardless
of their raw conversational text, and the successful write-through stores
under the very same key that the lookup probed. -/
theorem c8_cache_key :
    (∀ (q : String) (h₁ h₂ : List Msg),
        extract_last_repo_url h₁ = extract_last_repo_url h₂ →
        cache_key q (extract_last_repo_url h₁) = cache_key q (extract_last_repo_url h₂))
    ∧ (∀ (q : String) (h : List Msg), extract_last_repo_url h = none →
        cache_key q (extract_last_repo_url h) = q ++ "_")
    ∧ (∀ (now : ℤ) (q : String) (hist : List Msg) (ts : List ℤ)
        (cache : List (String × CachedResponse)) (c : String) (ru : Option String),
        (check_rate_limit now ts).1 = true →
        List.lookup (cache_key q (extract_last_repo_url hist)) cache = none →
        (github_agent_endpoint now q hist ts cache (.ok c ru)).cache
          = (cache_key q (extract_last_repo_url hist),
             ⟨c, pyOrOpt ru (extract_last_repo_url hist)⟩) :: cache) := by
  refine ⟨?_, ?_, ?_⟩
  · intro q h₁ h₂ he
    rw [he]
  · intro q h he
    rw [he]
    simp [cache_key, orEmptyStr]
  · intro now q hist ts cache c ru hrl hlookup
    simp only [github_agent_endpoint, hrl, hlookup, Bool.true_eq_false, if_false]

/-- Witness for C8: key stability across two histories with different raw
text, and the write-through equation, at concrete inputs. -/
theorem c8_witness :
    cache_key "q" (extract_last_repo_url [⟨"ai", "first phrasing", .jsonObj (some "R")⟩])
      = cache_key "q" (extract_last_repo_url [⟨"ai", "second phrasing", .jsonObj (some "R")⟩])
    ∧ (github_agent_endpoint 0 "q" [] [] [] (.ok "ans" none)).cache
      = (cache_key "q" (extract_last_repo_url []), ⟨"ans", pyOrOpt none (extract_last_repo_url [])⟩) :: [] :=
  ⟨c8_cache_key.1 "q" _ _ (by decide),
   c8_cache_key.2.2 0 "q" [] [] [] "ans" none (by decide) (by decide)⟩

/-- Claim C4, counterexample: the endpoint checks the rate limit first
(line 123) and only then resolves the conversation context (lines 129-141),
so the claimed `Start → ContextResolved → AdmissionChecked` order is
reversed, and a denied call never reaches context resolution at all. -/
theorem c4_counterexample :
    (github_agent_endpoint 0 "q" [] [] [] (.ok "ans" none)).events
        = [.rateLimitCheck, .resolveContext, .storeUserMsg, .cacheLookup,
           .agentRun, .cacheWrite, .storeAiMsg]
    ∧ (github_agent_endpoint 0 "q" [] (List.replicate 30 (0 : ℤ)) [] (.ok "ans" none)).events
        = [.rateLimitCheck]
    ∧ Ev.resolveContext ∉
        (github_agent_endpoint 0 "q" [] (List.replicate 30 (0 : ℤ)) [] (.ok "ans" none)).events :=
  ⟨by decide, by decide, by decide⟩

/-- Claim C4 (amended): every orchestrated call checks admission first; a
denial terminates the call with the rate-limited failure before context
resolution, cache lookup, or any agent/transport step; an admitted call then
resolves context, stores the user message, and probes the cache, and a cache
hit returns the cached value without running the agent. -/
theorem c4_orchestrator_order :
    ∀ (now : ℤ) (q : String) (hist : List Msg) (ts : List ℤ)
      (cache : List (String × CachedResponse)) (agent : AgentOutcome),
      ((check_rate_limit now ts).1 = false →
        (github_agent_endpoint now q hist ts cache agent).response
            = ⟨false, some rateLimitMsg, some rateLimitMsg, none⟩
        ∧ (github_agent_endpoint now q hist ts cache agent).events = [.rateLimitCheck]
        ∧ (github_agent_endpoint now q hist ts cache agent).cache = cache)
      ∧ ((check_rate_limit now ts).1 = true →
        (github_agent_endpoint now q hist ts cache agent).events.take 4
            = [.rateLimitCheck, .resolveContext, .storeUserMsg, .cacheLookup])
      ∧ (∀ v, (check_rate_limit now ts).1 = true →
        List.lookup (cache_key q (extract_last_repo_url hist)) cache = some v →
        (github_agent_endpoint now q hist ts cache agent).response.success = true
        ∧ (github_agent_endpoint now q hist ts cache agent).response.message = some v.content
        ∧ Ev.agentRun ∉ (github_agent_endpoint now q hist ts cache agent).events
        ∧ (github_agent_endpoint now q hist ts cache agent).cache = cache) := by
  intro now q hist ts cache agent
  refine ⟨?_, ?_, ?_⟩
  · intro hrl
    simp only [github_agent_endpoint, hrl, if_true]
    exact ⟨by trivial, by trivial, by trivial⟩
  · intro hrl
    simp only [github_agent_endpoint, hrl, Bool.true_eq_false, if_false]
    cases List.lookup (cache_key q (extract_last_repo_url hist)) cache with
    | none => cases agent <;> rfl
    | some v => rfl
  · intro v hrl hlookup
    simp only [github_agent_endpoint, hrl, hlookup, Bool.true_eq_false, if_false]
    exact ⟨by trivial, by trivial, by decide, by trivial⟩

/-- Witness for C4: the denial branch at a full window and the cache-hit
branch at a primed cache, at concrete inputs. -/
theorem c4_witness :
    (github_agent_endpoint 0 "q" [] (List.replicate 30 (0 : ℤ)) [] (.ok "ans" none)).response
        = ⟨false, some rateLimitMsg, some rateLimitMsg, none⟩
    ∧ (github_agent_endpoint 0 "q" [] [] [("q_", ⟨"cached", none⟩)] (.failed "x")).response.message
        = some "cached" :=
  ⟨((c4_orchestrator_order 0 "q" [] (List.replicate 30 (0 : ℤ)) [] (.ok "ans" none)).1
      (by decide)).1,
   ((c4_orchestrator_order 0 "q" [] [] [("q_", ⟨"cached", none⟩)] (.failed "x")).2.2
      ⟨"cached", none⟩ (by decide) (by decide)).2.1⟩

theorem joinSegs_cons_ne_nil (s : String) (segs : List String) (h : segs ≠ []) :
    joinSegs (s :: segs) = s ++ "/" ++ joinSegs segs := by
  cases segs with
  | nil => exact absurd rfl h
  | cons t rest => rfl

theorem childPath_ne_empty (base n : String) (hn : n ≠ "") : childPath base n ≠ "" := by
  unfold childPath
  by_cases hb : base = ""
  · rw [if_pos hb]; exact hn
  · rw [if_neg hb]
    intro hc
    have hlen := congrArg String.length hc
    simp [String.length_append] at hlen
    exact absurd hlen.1.2 (by decide)

theorem joinBase_childPath (base n : String) (segs : List String) (hn : n ≠ "")
    (hs : segs ≠ []) : joinBase (childPath base n) segs = joinBase base (n :: segs) := by
  unfold joinBase
  by_cases hb : base = ""
  · have hcp : childPath base n = n := by rw [childPath, if_pos hb]
    rw [hcp, if_neg hn, if_pos hb, joinSegs_cons_ne_nil n segs hs]
  · have hcp : childPath base n = base ++ "/" ++ n := by rw [childPath, if_neg hb]
    have hne : base ++ "/" ++ n ≠ "" := hcp ▸ childPath_ne_empty base n hn
    rw [hcp, if_neg hne, if_neg hb, joinSegs_cons_ne_nil n segs hs]
    simp [String.append_assoc]

theorem OccursUnder.in_cons {anc : List String} {e x : RawEntry} {es : List RawEntry}
    (h : OccursUnder anc e es) : OccursUnder anc e (x :: es) := by
  cases h with
  | here hm => exact .here (List.mem_cons_of_mem _ hm)
  | child hm ht hc hsub => exact .child (List.mem_cons_of_mem _ hm) ht hc hsub

theorem namesOkL_cons {n t : String} {cs rest : List RawEntry} {m : BlobMeta}
    (h : namesOkL (.mk n t cs m :: rest) = true) :
    n ≠ "" ∧ namesOkL cs = true ∧ namesOkL rest = true := by
  simp only [namesOkL, Bool.and_eq_true, Bool.not_eq_true', beq_eq_false_iff_ne] at h
  exact ⟨h.1.1, h.1.2, h.2⟩

theorem flatten_occurs :
    ∀ (entries : List RawEntry) (base : String), namesOkL entries = true →
      ∀ fe ∈ flatten_tree_entries entries base,
        ∃ anc, OccursUnder anc fe.orig entries
          ∧ fe.path = joinBase base (anc ++ [fe.orig.name]) := by
  intro entries base
  induction entries, base using flatten_tree_entries.induct with
  | case1 base => intro _ fe hfe; simp [flatten_tree_entries] at hfe
  | case2 n t cs m rest base ih_cs ih_rest =>
    intro hnames fe hfe
    obtain ⟨hn, hcs, hrest⟩ := namesOkL_cons hnames
    rw [show flatten_tree_entries (.mk n t cs m :: rest) base
        = (if t = "tree" ∧ cs.isEmpty = false
            then flatten_tree_entries cs (childPath base n) else [])
          ++ ⟨.mk n t cs m, childPath base n⟩ :: flatten_tree_entries rest base
      from by simp [flatten_tree_entries]] at hfe
    rcases List.mem_append.mp hfe with hfe1 | hfe2
    · by_cases hcond : t = "tree" ∧ cs.isEmpty = false
      · rw [if_pos hcond] at hfe1
        obtain ⟨anc, hocc, hpath⟩ := ih_cs hcs fe hfe1
        have hcsne : cs ≠ [] := by
          intro hnil
          rw [hnil] at hcond
          simp at hcond
        refine ⟨n :: anc, .child (List.mem_cons_self _ _) hcond.1 hcsne hocc, ?_⟩
        rw [hpath, joinBase_childPath base n (anc ++ [fe.orig.name]) hn (by simp)]
        rfl
      · rw [if_neg hcond] at hfe1
        simp at hfe1
    · rcases List.mem_cons.mp hfe2 with hfeq | hfe3
      · refine ⟨[], ?_, ?_⟩
        · rw [hfeq]
          exact .here (List.mem_cons_self _ _)
        · rw [hfeq]
          show childPath base n = joinBase base ([] ++ [RawEntry.name (.mk n t cs m)])
          simp only [List.nil_append, RawEntry.name, joinBase, childPath, joinSegs]
      · obtain ⟨anc, hocc, hpath⟩ := ih_rest hrest fe hfe3
        exact ⟨anc, hocc.in_cons, hpath⟩

/-- Claim C1, counterexample: the flattener joins with
`f"{base_path}/{name}" if base_path else name`, so a root-level directory
with an empty name yields children whose paths omit the empty ancestor: the
child of such a directory gets path `c`, while joining its ancestor names
and its own name with `/` gives `/c`.  The universal path invariant
therefore fails on entry lists containing empty names. -/
theorem c1_counterexample :
    flatten_tree_entries
        [.mk "" "tree" [.mk "c" "blob" [] ⟨none, none, none⟩] ⟨none, none, none⟩] ""
      = [⟨.mk "c" "blob" [] ⟨none, none, none⟩, "c"⟩,
         ⟨.mk "" "tree" [.mk "c" "blob" [] ⟨none, none, none⟩] ⟨none, none, none⟩, ""⟩]
    ∧ joinSegs ["", "c"] = "/c"
    ∧ ("c" : String) ≠ "/c" := by
  refine ⟨?_, by decide, by decide⟩
  simp [flatten_tree_entries, childPath]

/-- Claim C1 (amended): the flattener processes input entries in source
order, each entry contributing first (when it is a `tree` carrying a
non-empty nested list) the recursive flattening of its nested entries with
its own path as the new base, and then the entry itself with path
`basePath ++ "/" ++ name` (just `name` when the base is empty); and on
every input whose entry names are all non-empty, each output entry descends
from the input (no fabricated entries) and its path is the base joined with
its ancestor directory names and its own name by `/`. -/
theorem c1_flattener :
    (∀ (n t : String) (cs : List RawEntry) (m : BlobMeta) (rest : List RawEntry)
        (base : String),
      flatten_tree_entries (.mk n t cs m :: rest) base
        = (if t = "tree" ∧ cs.isEmpty = false
            then flatten_tree_entries cs (childPath base n) else [])
          ++ ⟨.mk n t cs m, childPath base n⟩ :: flatten_tree_entries rest base)
    ∧ (∀ (entries : List RawEntry) (base : String), namesOkL entries = true →
        ∀ fe ∈ flatten_tree_entries entries base,
          ∃ anc, OccursUnder anc fe.orig entries
            ∧ fe.path = joinBase base (anc ++ [fe.orig.name])) :=
  ⟨fun n t cs m rest base => by simp [flatten_tree_entries], flatten_occurs⟩

/-- Witness for C1: the occurrence-and-path invariant applied to a concrete
one-entry tree, with the non-empty-names hypothesis and list membership
evaluated. -/
theorem c1_witness :
    ∃ anc,
      OccursUnder anc (FlatEntry.mk (.mk "a" "blob" [] ⟨none, none, none⟩) "a").orig
          [RawEntry.mk "a" "blob" [] ⟨none, none, none⟩]
        ∧ (FlatEntry.mk (.mk "a" "blob" [] ⟨none, none, none⟩) "a").path
            = joinBase ""
                (anc ++ [(FlatEntry.mk (.mk "a" "blob" [] ⟨none, none, none⟩) "a").orig.name]) :=
  c1_flattener.2 [RawEntry.mk "a" "blob" [] ⟨none, none, none⟩] "" (by simp [namesOkL])
    (FlatEntry.mk (.mk "a" "blob" [] ⟨none, none, none⟩) "a")
    (by simp [flatten_tree_entries, childPath])

theorem purgeOld_eq_self (now : ℤ) (ts : List ℤ)
    (h : ∀ t ∈ ts, now - t ≤ RATE_LIMIT_WINDOW) : purgeOld now ts = ts := by
  cases ts with
  | nil => rfl
  | cons t rest =>
    simp only [purgeOld]
    rw [if_neg (by have := h t (List.mem_cons_self t rest); omega)]

theorem purgeOld_eq_nil (now : ℤ) (ts : List ℤ)
    (h : ∀ t ∈ ts, RATE_LIMIT_WINDOW < now - t) : purgeOld now ts = [] := by
  induction ts with
  | nil => rfl
  | cons t rest ih =>
    simp only [purgeOld]
    rw [if_pos (h t (List.mem_cons_self t rest))]
    exact ih (fun x hx => h x (List.mem_cons_of_mem _ hx))

theorem purgeOld_eq_filter (now : ℤ) (ts : List ℤ) (hs : ts.Pairwise (· ≤ ·)) :
    purgeOld now ts = ts.filter (fun t => decide (now - t ≤ RATE_LIMIT_WINDOW)) := by
  induction ts with
  | nil => rfl
  | cons t rest ih =>
    rw [List.pairwise_cons] at hs
    by_cases h : RATE_LIMIT_WINDOW < now - t
    · simp only [purgeOld]
      rw [if_pos h, List.filter_cons, if_neg (by simp; omega)]
      exact ih hs.2
    · simp only [purgeOld]
      rw [if_neg h, List.filter_cons, if_pos (by simp; omega)]
      have hall : ∀ x ∈ rest, now - x ≤ RATE_LIMIT_WINDOW := by
        intro x hx
        have := hs.1 x hx
        omega
      have : rest.filter (fun t => decide (now - t ≤ RATE_LIMIT_WINDOW)) = rest :=
        List.filter_eq_self.mpr (fun a ha => by simp; have := hall a ha; omega)
      rw [this]

theorem check_rate_limit_denied (now : ℤ) (ts : List ℤ)
    (h : MAX_REQUESTS_PER_WINDOW ≤ (purgeOld now ts).length) :
    check_rate_limit now ts = (false, purgeOld now ts) := by
  unfold check_rate_limit
  rw [if_pos h]

theorem check_rate_limit_admitted (now : ℤ) (ts : List ℤ)
    (h : (purgeOld now ts).length < MAX_REQUESTS_PER_WINDOW) :
    check_rate_limit now ts = (true, purgeOld now ts ++ [now]) := by
  unfold check_rate_limit
  rw [if_neg (by omega)]

theorem runCalls_cons (c : ℤ) (rest ts : List ℤ) :
    runCalls (c :: rest) ts
      = ((c, (check_rate_limit c ts).1) :: (runCalls rest (check_rate_limit c ts).2).1,
         (runCalls rest (check_rate_limit c ts).2).2) := rfl

theorem admittedFrom_cons (c : ℤ) (rest ts : List ℤ) :
    admittedFrom (c :: rest) ts
      = (if (check_rate_limit c ts).1 = true then [c] else [])
        ++ admittedFrom rest (check_rate_limit c ts).2 := by
  cases h : (check_rate_limit c ts).1 <;>
    simp [admittedFrom, runCalls_cons, h]

theorem admit_all : ∀ (calls ts : List ℤ),
    (∀ x ∈ ts ++ calls, ∀ y ∈ ts ++ calls, x - y ≤ RATE_LIMIT_WINDOW) →
    ts.length + calls.length ≤ MAX_REQUESTS_PER_WINDOW →
    (∀ r ∈ (runCalls calls ts).1, r.2 = true) ∧ (runCalls calls ts).2 = ts ++ calls := by
  intro calls
  induction calls with
  | nil =>
    intro ts h hlen
    exact ⟨by simp [runCalls], by simp [runCalls]⟩
  | cons c rest ih =>
    intro ts h hlen
    have hpurge : purgeOld c ts = ts :=
      purgeOld_eq_self c ts (fun t ht => h c (by simp) t (by simp [ht]))
    have hlt : (purgeOld c ts).length < MAX_REQUESTS_PER_WINDOW := by
      rw [hpurge]
      simp at hlen
      omega
    have hchk := check_rate_limit_admitted c ts hlt
    have hstate : (check_rate_limit c ts).2 = ts ++ [c] := by rw [hchk, hpurge]
    have hmem : ∀ x ∈ (ts ++ [c]) ++ rest, ∀ y ∈ (ts ++ [c]) ++ rest,
        x - y ≤ RATE_LIMIT_WINDOW := by
      intro x hx y hy
      apply h <;> simp at hx hy ⊢ <;> tauto
    have hlen2 : (ts ++ [c]).length + rest.length ≤ MAX_REQUESTS_PER_WINDOW := by
      simp at hlen ⊢
      omega
    obtain ⟨hall, hfin⟩ := ih (ts ++ [c]) hmem hlen2
    constructor
    · intro r hr
      rw [runCalls_cons] at hr
      rcases List.mem_cons.mp hr with hr1 | hr2
      · rw [hr1, hchk]
      · rw [hstate] at hr2
        exact hall r hr2
    · rw [runCalls_cons]
      show (runCalls rest (check_rate_limit c ts).2).2 = ts ++ c :: rest
      rw [hstate, hfin]
      simp

theorem window_bound_aux :
    ∀ (calls A : List ℤ) (c0 : ℤ),
      calls.Pairwise (· ≤ ·) → (∀ c ∈ calls, c0 ≤ c) →
      A.Pairwise (· ≤ ·) → (∀ t ∈ A, t ≤ c0) →
      (∀ τ, (A.filter (inWindow τ)).length ≤ MAX_REQUESTS_PER_WINDOW) →
      ∀ τ, ((A ++ admittedFrom calls
              (A.filter (fun t => decide (c0 - t ≤ RATE_LIMIT_WINDOW)))).filter
            (inWindow τ)).length ≤ MAX_REQUESTS_PER_WINDOW := by
  intro calls
  induction calls with
  | nil =>
    intro A c0 _ _ _ _ hcount τ
    simpa [admittedFrom, runCalls] using hcount τ
  | cons c rest ih =>
    intro A c0 hpw hge hApw hAle hcount τ
    rw [List.pairwise_cons] at hpw
    have hc0c : c0 ≤ c := hge c (by simp)
    have hAfs : (A.filter (fun t => decide (c0 - t ≤ RATE_LIMIT_WINDOW))).Pairwise (· ≤ ·) :=
      hApw.filter _
    have hpurge : purgeOld c (A.filter (fun t => decide (c0 - t ≤ RATE_LIMIT_WINDOW)))
        = A.filter (fun t => decide (c - t ≤ RATE_LIMIT_WINDOW)) := by
      rw [purgeOld_eq_filter c _ hAfs, List.filter_filter]
      apply List.filter_congr
      intro a _
      by_cases hca : c - a ≤ RATE_LIMIT_WINDOW
      · have h0a : c0 - a ≤ RATE_LIMIT_WINDOW := by omega
        simp [hca, h0a]
      · simp [hca]
    by_cases hlen :
        MAX_REQUESTS_PER_WINDOW
          ≤ (purgeOld c (A.filter (fun t => decide (c0 - t ≤ RATE_LIMIT_WINDOW)))).length
    · have hchk := check_rate_limit_denied c _ hlen
      rw [admittedFrom_cons, hchk]
      simp only [Bool.false_eq_true, if_false, List.nil_append]
      rw [hpurge]
      exact ih A c hpw.2 hpw.1 hApw (fun t ht => le_trans (hAle t ht) hc0c) hcount τ
    · push_neg at hlen
      have hchk := check_rate_limit_admitted c _ hlen
      rw [hpurge] at hlen
      rw [admittedFrom_cons, hchk]
      simp only [if_pos]
      rw [← List.append_assoc]
      have hcc : c - c ≤ RATE_LIMIT_WINDOW := by unfold RATE_LIMIT_WINDOW; omega
      have hstate :
          purgeOld c (A.filter (fun t => decide (c0 - t ≤ RATE_LIMIT_WINDOW))) ++ [c]
            = (A ++ [c]).filter (fun t => decide (c - t ≤ RATE_LIMIT_WINDOW)) := by
        rw [hpurge, List.filter_append, List.filter_cons, List.filter_nil,
          if_pos (show decide (c - c ≤ RATE_LIMIT_WINDOW) = true from decide_eq_true hcc)]
      rw [hstate]
      apply ih (A ++ [c]) c hpw.2 hpw.1
      · rw [List.pairwise_append]
        refine ⟨hApw, by simp, ?_⟩
        intro a ha b hb
        simp at hb
        rw [hb]
        exact le_trans (hAle a ha) hc0c
      · intro t ht
        rcases List.mem_append.mp ht with h1 | h2
        · exact le_trans (hAle t h1) hc0c
        · simp at h2
          omega
      · intro τ2
        rw [List.filter_append]
        by_cases hcw : inWindow τ2 c = true
        · have hsub : (A.filter (inWindow τ2)).Sublist
              (A.filter (fun t => decide (c - t ≤ RATE_LIMIT_WINDOW))) := by
            apply List.monotone_filter_right
            intro a ha
            simp only [inWindow, Bool.and_eq_true, decide_eq_true_eq] at ha hcw ⊢
            omega
          have hlen2 := hsub.length_le
          have hone : ([c].filter (inWindow τ2)).length ≤ 1 :=
            le_trans (List.length_filter_le _ _) (by simp)
          rw [List.length_append]
          omega
        · have hnil : [c].filter (inWindow τ2) = [] := by
            simp only [List.filter_cons, List.filter_nil]
            rw [if_neg (by simp [hcw])]
          rw [hnil]
          simpa using hcount τ2

theorem admitted_window_bound (calls : List ℤ) (h : calls.Pairwise (· ≤ ·)) :
    ∀ τ, ((admittedTimes calls).filter (inWindow τ)).length ≤ MAX_REQUESTS_PER_WINDOW := by
  intro τ
  cases calls with
  | nil => simp [admittedTimes, admittedFrom, runCalls]
  | cons c rest =>
    have hge : ∀ x ∈ c :: rest, c ≤ x := by
      intro x hx
      rcases List.mem_cons.mp hx with h1 | h2
      · rw [h1]
      · exact (List.pairwise_cons.mp h).1 x h2
    have := window_bound_aux (c :: rest) [] c h hge (by simp) (by simp)
      (by intro τ2; simp) τ
    simpa [admittedTimes] using this

theorem deny_when_full (calls : List ℤ) (c : ℤ)
    (hpair : ∀ x ∈ calls, ∀ y ∈ calls, x - y ≤ RATE_LIMIT_WINDOW)
    (hlen : calls.length = MAX_REQUESTS_PER_WINDOW)
    (hwin : ∀ x ∈ calls, c - x ≤ RATE_LIMIT_WINDOW) :
    (check_rate_limit c (runCalls calls []).2).1 = false := by
  obtain ⟨_, hfin⟩ := admit_all calls [] (by simpa using hpair) (by simp [hlen])
  rw [show (runCalls calls []).2 = calls from by simpa using hfin]
  rw [check_rate_limit_denied c calls (by rw [purgeOld_eq_self c calls hwin, hlen])]

/-- Claim C3: the sliding-window admission controller.  Each call first
purges timestamps strictly older than `RATE_LIMIT_WINDOW = 60` seconds (on
sorted states the purge loop equals a filter), denies without recording when
`MAX_REQUESTS_PER_WINDOW = 30` timestamps remain and otherwise records the
call time and admits; any `30` calls whose times pairwise lie within one
window are all admitted from the initial empty state; a 31st call within the
same window is denied; over any nondecreasing call sequence at most `30`
admissions fall inside any trailing 60-second window; and once every
recorded timestamp is strictly older than the window, admission resumes. -/
theorem c3_rate_limiter :
    (∀ (now : ℤ) (ts : List ℤ), ts.Pairwise (· ≤ ·) →
      purgeOld now ts = ts.filter (fun t => decide (now - t ≤ RATE_LIMIT_WINDOW)))
    ∧ (∀ (now : ℤ) (ts : List ℤ), MAX_REQUESTS_PER_WINDOW ≤ (purgeOld now ts).length →
      check_rate_limit now ts = (false, purgeOld now ts))
    ∧ (∀ (now : ℤ) (ts : List ℤ), (purgeOld now ts).length < MAX_REQUESTS_PER_WINDOW →
      check_rate_limit now ts = (true, purgeOld now ts ++ [now]))
    ∧ (∀ calls : List ℤ,
      (∀ x ∈ calls, ∀ y ∈ calls, x - y ≤ RATE_LIMIT_WINDOW) →
      calls.length ≤ MAX_REQUESTS_PER_WINDOW →
      ∀ r ∈ (runCalls calls []).1, r.2 = true)
    ∧ (∀ (calls : List ℤ) (c : ℤ),
      (∀ x ∈ calls, ∀ y ∈ calls, x - y ≤ RATE_LIMIT_WINDOW) →
      calls.length = MAX_REQUESTS_PER_WINDOW →
      (∀ x ∈ calls, c - x ≤ RATE_LIMIT_WINDOW) →
      (check_rate_limit c (runCalls calls []).2).1 = false)
    ∧ (∀ calls : List ℤ, calls.Pairwise (· ≤ ·) →
      ∀ τ, ((admittedTimes calls).filter (inWindow τ)).length ≤ MAX_REQUESTS_PER_WINDOW)
    ∧ (∀ (now : ℤ) (ts : List ℤ), (∀ t ∈ ts, RATE_LIMIT_WINDOW < now - t) →
      (check_rate_limit now ts).1 = true) := by
  refine ⟨purgeOld_eq_filter, check_rate_limit_denied, check_rate_limit_admitted,
    ?_, deny_when_full, admitted_window_bound, ?_⟩
  · intro calls hpair hlen
    exact (admit_all calls [] (by simpa using hpair) (by simpa using hlen)).1
  · intro now ts h
    rw [check_rate_limit_admitted now ts
      (by rw [purgeOld_eq_nil now ts h]; simp [MAX_REQUESTS_PER_WINDOW])]

/-- Witness for C3: thirty calls at time 0 are all admitted and a 31st at
time 0 is denied; a call at time 61 with one stamp at 0 is admitted; and the
trailing-window bound holds at a concrete admitted sequence — every
hypothesis discharged by evaluation. -/
theorem c3_witness :
    (check_rate_limit 0 (runCalls (List.replicate 30 (0 : ℤ)) []).2).1 = false
    ∧ (check_rate_limit 61 [(0 : ℤ)]).1 = true
    ∧ ((admittedTimes [(0 : ℤ), 30]).filter (inWindow 30)).length
        ≤ MAX_REQUESTS_PER_WINDOW :=
  ⟨c3_rate_limiter.2.2.2.2.1 (List.replicate 30 (0 : ℤ)) 0 (by decide) (by decide)
      (by decide),
   c3_rate_limiter.2.2.2.2.2.2 61 [(0 : ℤ)] (by decide),
   c3_rate_limiter.2.2.2.2.2.1 [(0 : ℤ), 30] (by decide) 30⟩

end GHC
